import Mathlib

/-!
Formal model of the VHS v2 per-frame signal pipeline
(src/scripts/vhs_v2_processor.py).

Frames are row-major lists of rows; a pixel of the 8-bit BGR frame is a
triple (b, g, r) of naturals, and the internal YIQ planes are real-valued.
Floating-point arithmetic of the reference is modelled by exact real
arithmetic.  The stochastic draws of the noise stages are passed in
explicitly as planes (an explicit random source), matching how
numpy.random supplies a full-shape sample.
-/

noncomputable section

abbrev Plane := List (List ℝ)

abbrev Frame8 := List (List (ℕ × ℕ × ℕ))

abbrev FrameR := List (List (ℝ × ℝ × ℝ))

/-- Build an h-by-w grid from an index function (row-major). -/
def mkGrid {α : Type} (h w : ℕ) (f : ℕ → ℕ → α) : List (List α) :=
  (List.range h).map fun i => (List.range w).map fun j => f i j

/-- Entry of a grid at (i, j), with a default for out-of-range access. -/
def gridAt {α : Type} (d : α) (G : List (List α)) (i j : ℕ) : α :=
  (G.getD i []).getD j d

/-- Entry of a real plane at (i, j) (default 0). -/
def planePx (P : Plane) (i j : ℕ) : ℝ :=
  gridAt 0 P i j

/-- Entry of an 8-bit frame at (i, j) (default (0,0,0)). -/
def px8 (F : Frame8) (i j : ℕ) : ℕ × ℕ × ℕ :=
  gridAt (0, 0, 0) F i j

/-- Entry of a real frame at (i, j) (default (0,0,0)). -/
def pxR (F : FrameR) (i j : ℕ) : ℝ × ℝ × ℝ :=
  gridAt (0, 0, 0) F i j

/-- Sum of all entries of a plane (np.sum of a 2-D array). -/
def planeSum (P : Plane) : ℝ :=
  (P.map List.sum).sum

/-- Arithmetic mean of a plane (np.mean of a rectangular 2-D array). -/
def planeMean (P : Plane) : ℝ :=
  planeSum P / ((P.length : ℝ) * (((P.getD 0 []).length : ℝ)))

/-- OpenCV BORDER_REFLECT_101 index folding: reflection without repeating
the edge sample, written in closed form (period 2n-2). -/
def borderIdx (n : ℕ) (i : ℤ) : ℕ :=
  if n ≤ 1 then 0
  else
    let m : ℤ := 2 * (n : ℤ) - 2
    let r : ℤ := i % m
    if r < (n : ℤ) then r.toNat else (m - r).toNat

/-- The fixed small Gaussian kernels OpenCV uses for ksize 1,3,5,7 with
nonpositive sigma (small_gaussian_tab in smooth.cpp). -/
def smallGaussTab (k : ℕ) : List ℝ :=
  match k with
  | 1 => [1]
  | 3 => [0.25, 0.5, 0.25]
  | 5 => [0.0625, 0.25, 0.375, 0.25, 0.0625]
  | 7 => [0.03125, 0.109375, 0.21875, 0.28125, 0.21875, 0.109375, 0.03125]
  | _ => []

/-- cv2.getGaussianKernel: a fixed table for small odd ksize with sigma <= 0,
otherwise normalized samples of exp(-x^2 / (2 sigma^2)) with the sigma
derived from ksize when nonpositive.  getGaussianKernel itself accepts
any positive ksize; the odd-ksize assertion of cv2.GaussianBlur lives in
its kernel-creation wrapper and is noted at gaussianBlur below. -/
def gaussKernel (k : ℕ) (sigma : ℝ) : List ℝ :=
  if sigma ≤ 0 ∧ k ≤ 7 ∧ k % 2 = 1 then smallGaussTab k
  else
    let s : ℝ := if 0 < sigma then sigma else 0.3 * (((k : ℝ) - 1) * 0.5 - 1) + 0.8
    let raw : List ℝ :=
      (List.range k).map fun i => Real.exp (-(((i : ℝ) - ((k : ℝ) - 1) / 2) ^ 2) / (2 * s ^ 2))
    raw.map fun v => v / raw.sum

/-- Horizontal 1-D correlation along each row with reflect-101 borders
(the row pass of cv2.GaussianBlur). -/
def blurH (ker : List ℝ) (P : Plane) : Plane :=
  mkGrid P.length (P.getD 0 []).length fun i j =>
    ∑ t ∈ Finset.range ker.length,
      ker.getD t 0 *
        planePx P i (borderIdx (P.getD 0 []).length ((j : ℤ) + (t : ℤ) - (ker.length / 2 : ℕ)))

/-- Vertical 1-D correlation along each column with reflect-101 borders
(the column pass of cv2.GaussianBlur). -/
def blurV (ker : List ℝ) (P : Plane) : Plane :=
  mkGrid P.length (P.getD 0 []).length fun i j =>
    ∑ t ∈ Finset.range ker.length,
      ker.getD t 0 *
        planePx P (borderIdx P.length ((i : ℤ) + (t : ℤ) - (ker.length / 2 : ℕ))) j

/-- cv2.GaussianBlur on one plane: ksize = (kw, kh), separable row pass
then column pass; each direction derives its kernel from its ksize.
cv2.GaussianBlur asserts that both ksize components are odd and raises
cv2.error otherwise, so this total function is a faithful model only at
odd ksize.  Every fixed call site in the pipeline passes the odd
constants 1, 3, 5 or 7; the one data-dependent size, the bleed kernel,
is odd exactly when int(2 * amount) is even (in particular for every
integral amount), and the theorems about that stage quantify only over
that domain. -/
def gaussianBlur (kw kh : ℕ) (sigma : ℝ) (P : Plane) : Plane :=
  blurV (gaussKernel kh sigma) (blurH (gaussKernel kw sigma) P)

/-- The three same-shaped YIQ planes. -/
structure YIQ where
  Y : Plane
  I : Plane
  Q : Plane

/-- np.clip(x, 0, 255) followed by astype(np.uint8): clamp then truncate
toward zero (floor, since the clamped value is nonnegative). -/
def toByte (x : ℝ) : ℕ :=
  (⌊min 255 (max x 0)⌋).toNat

/-- Frame cast to float32 (frame.astype(np.float32)). -/
def toFloatFrame (F : Frame8) : FrameR :=
  F.map (List.map fun p => ((p.1 : ℝ), (p.2.1 : ℝ), (p.2.2 : ℝ)))

/-- VHSv2VideoProcessor.bgr2yiq: per-pixel fixed matrix, planar output. -/
def bgr2yiq (F : FrameR) : YIQ :=
  { Y := mkGrid F.length (F.getD 0 []).length fun i j =>
      0.299 * (pxR F i j).2.2 + 0.587 * (pxR F i j).2.1 + 0.114 * (pxR F i j).1
    I := mkGrid F.length (F.getD 0 []).length fun i j =>
      0.596 * (pxR F i j).2.2 - 0.274 * (pxR F i j).2.1 - 0.322 * (pxR F i j).1
    Q := mkGrid F.length (F.getD 0 []).length fun i j =>
      0.211 * (pxR F i j).2.2 - 0.523 * (pxR F i j).2.1 + 0.312 * (pxR F i j).1 }

/-- VHSv2VideoProcessor.yiq2bgr: inverse matrix per pixel, stacked as BGR,
then np.clip(.., 0, 255).astype(np.uint8). -/
def yiq2bgr (s : YIQ) : Frame8 :=
  mkGrid s.Y.length (s.Y.getD 0 []).length fun i j =>
    (toByte (planePx s.Y i j - 1.105 * planePx s.I i j + 1.702 * planePx s.Q i j),
     toByte (planePx s.Y i j - 0.272 * planePx s.I i j - 0.647 * planePx s.Q i j),
     toByte (planePx s.Y i j + 0.956 * planePx s.I i j + 0.619 * planePx s.Q i j))

/-- Elementwise sum of two planes (shape taken from the first). -/
def planeAdd (A B : Plane) : Plane :=
  mkGrid A.length (A.getD 0 []).length fun i j => planePx A i j + planePx B i j

/-- Multiply every entry of a plane by a scalar. -/
def planeScale (c : ℝ) (P : Plane) : Plane :=
  mkGrid P.length (P.getD 0 []).length fun i j => c * planePx P i j

/-- Tape speed presets (the VHSSpeed enum; the closed set SP, LP, EP). -/
inductive VHSSpeed : Type
  | SP
  | LP
  | EP
deriving DecidableEq

/-- The horizontal blur kernel size selected per preset in
apply_tape_speed_effects (the dict keyed by VHSSpeed). -/
def VHSSpeed.kernelSize : VHSSpeed → ℕ
  | .SP => 3
  | .LP => 5
  | .EP => 7

/-- getattr(VHSSpeed, "VHS_" + tape_speed): succeeds exactly on the three
member names, an AttributeError otherwise, modelled as Option. -/
def resolvePreset (s : String) : Option VHSSpeed :=
  if s = "SP" then some VHSSpeed.SP
  else if s = "LP" then some VHSSpeed.LP
  else if s = "EP" then some VHSSpeed.EP
  else none

/-- The parameter record of the pipeline (the params dict). -/
structure Params where
  composite_preemphasis : ℝ
  vhs_out_sharpen : ℝ
  color_bleeding : ℝ
  video_noise : ℝ
  chroma_noise : ℝ
  chroma_phase_noise : ℝ
  enable_ringing : Bool
  ringing_power : ℕ
  tape_speed : String

/-- A possibly-incomplete parameter record supplied by the caller
(a JSON dict that may omit keys). -/
structure ParamsIn where
  composite_preemphasis : Option ℝ
  vhs_out_sharpen : Option ℝ
  color_bleeding : Option ℝ
  video_noise : Option ℝ
  chroma_noise : Option ℝ
  chroma_phase_noise : Option ℝ
  enable_ringing : Option Bool
  ringing_power : Option ℕ
  tape_speed : Option String

/-- self.default_params of VHSv2VideoProcessor. -/
def default_params : Params :=
  { composite_preemphasis := 4.0
    vhs_out_sharpen := 2.5
    color_bleeding := 5.0
    video_noise := 1000.0
    chroma_noise := 5000.0
    chroma_phase_noise := 25.0
    enable_ringing := true
    ringing_power := 2
    tape_speed := "SP" }

/-- The parameter-validation step of process_video: every key missing from
the supplied record is filled from default_params.  It is total: no
parameter value is ever rejected here. -/
def validateParams (q : ParamsIn) : Params :=
  { composite_preemphasis := q.composite_preemphasis.getD default_params.composite_preemphasis
    vhs_out_sharpen := q.vhs_out_sharpen.getD default_params.vhs_out_sharpen
    color_bleeding := q.color_bleeding.getD default_params.color_bleeding
    video_noise := q.video_noise.getD default_params.video_noise
    chroma_noise := q.chroma_noise.getD default_params.chroma_noise
    chroma_phase_noise := q.chroma_phase_noise.getD default_params.chroma_phase_noise
    enable_ringing := q.enable_ringing.getD default_params.enable_ringing
    ringing_power := q.ringing_power.getD default_params.ringing_power
    tape_speed := q.tape_speed.getD default_params.tape_speed }

/-- The per-frame random draws of the noise stages, passed explicitly. -/
structure RandDraws where
  lumaNoise : Plane
  chromaNoiseI : Plane
  chromaNoiseQ : Plane
  phaseDraw : Plane

/-- VHSv2VideoProcessor.apply_vhs_noise: when the amount is positive, the
Gaussian draw is blurred with a 3x3 kernel and added to Y. -/
def apply_vhs_noise (s : YIQ) (noise_amount : ℝ) (noise : Plane) : YIQ :=
  if 0 < noise_amount then
    { s with Y := planeAdd s.Y (gaussianBlur 3 3 0 noise) }
  else s

/-- VHSv2VideoProcessor.apply_chroma_noise: additive blurred noise on I and
Q when the amount is positive, then a per-pixel rotation of the (I, Q)
vector when the phase amount is positive.  The rotation angle is the
Gaussian draw scaled by pi/180 (the draw itself has sigma phase/10). -/
def apply_chroma_noise (s : YIQ) (noise_amount phase_noise : ℝ)
    (ni nq draw : Plane) : YIQ :=
  let I1 := if 0 < noise_amount then planeAdd s.I (gaussianBlur 3 3 0 ni) else s.I
  let Q1 := if 0 < noise_amount then planeAdd s.Q (gaussianBlur 3 3 0 nq) else s.Q
  if 0 < phase_noise then
    { Y := s.Y
      I := mkGrid I1.length (I1.getD 0 []).length fun i j =>
        planePx I1 i j * Real.cos (planePx draw i j * Real.pi / 180) -
          planePx Q1 i j * Real.sin (planePx draw i j * Real.pi / 180)
      Q := mkGrid I1.length (I1.getD 0 []).length fun i j =>
        planePx I1 i j * Real.sin (planePx draw i j * Real.pi / 180) +
          planePx Q1 i j * Real.cos (planePx draw i j * Real.pi / 180) }
  else { Y := s.Y, I := I1, Q := Q1 }

/-- int(amount * 2) + 1, the bleed kernel length (int truncates toward
zero; the amount is positive where this is used). -/
def bleedKernelSize (amount : ℝ) : ℕ :=
  (⌊amount * 2⌋).toNat + 1

/-- scipy.signal.lfilter(ones(k)/k, 1, row) applied to every row: the
causal moving-average FIR with zero initial state. -/
def firPlane (k : ℕ) (P : Plane) : Plane :=
  mkGrid P.length (P.getD 0 []).length fun i n =>
    ∑ t ∈ Finset.range k, if t ≤ n then planePx P i (n - t) / (k : ℝ) else 0

/-- VHSv2VideoProcessor.apply_color_bleeding: row-wise causal moving
average on I and Q, then cv2.GaussianBlur with ksize (1, k) - width 1 and
height k, a blur along the column axis - when k exceeds 1.  Y untouched;
no-op when the amount is not positive.  For a fractional amount whose
derived k = int(2 * amount) + 1 is even (e.g. 2.5 gives 6), the program
raises cv2.error at the GaussianBlur call; that even domain is outside
this total model and outside every theorem stated about the stage, which
quantify over integral amounts (where k = 2 * amount + 1 is odd). -/
def apply_color_bleeding (s : YIQ) (amount : ℝ) : YIQ :=
  if 0 < amount then
    let k := bleedKernelSize amount
    let I1 := firPlane k s.I
    let Q1 := firPlane k s.Q
    if 1 < k then
      { Y := s.Y, I := gaussianBlur 1 k 0 I1, Q := gaussianBlur 1 k 0 Q1 }
    else
      { Y := s.Y, I := I1, Q := Q1 }
  else s

/-- VHSv2VideoProcessor.apply_tape_speed_effects: a horizontal-only blur
(cv2.GaussianBlur with ksize (k, 1)) on all three planes, with k selected
by the preset. -/
def apply_tape_speed_effects (s : YIQ) (speed : VHSSpeed) : YIQ :=
  let k := speed.kernelSize
  if 1 < k then
    { Y := gaussianBlur k 1 0 s.Y
      I := gaussianBlur k 1 0 s.I
      Q := gaussianBlur k 1 0 s.Q }
  else s

/-- np.linspace(a, b, n): n evenly spaced samples including both
endpoints. -/
def linspace (a b : ℝ) (n : ℕ) : List ℝ :=
  (List.range n).map fun k => a + (b - a) * (k : ℝ) / ((n : ℝ) - 1)

/-- Minimum entry of a list (np.min over a nonempty array). -/
def listMin (l : List ℝ) : ℝ :=
  l.foldl min (l.headD 0)

/-- Maximum entry of a list (np.max over a nonempty array). -/
def listMax (l : List ℝ) : ℝ :=
  l.foldl max (l.headD 0)

/-- (p - p.min()) / (p.max() - p.min()), translated with Lean's total
real division.  A zero denominator (exactly constant samples) never
occurs in the program for any size actually evaluated: the float64
samples of the curve are not exactly constant (e.g. numpy sin(8*pi) is
about -9.8e-16, so at size 2 the denominator is about 2e-16, not 0), and
the Lean convention x / 0 = 0 at that unreached point also lies inside
the claimed [0, 1] bounds. -/
def normalize01 (l : List ℝ) : List ℝ :=
  l.map fun v => (v - listMin l) / (listMax l - listMin l)

/-- The primary ring curve sin(4x) * exp(-x/4). -/
def ringBase (x : ℝ) : ℝ :=
  Real.sin (4 * x) * Real.exp (-x / 4)

/-- The secondary harmonic 0.3 * sin(8x) * exp(-x/2). -/
def ringHarmonic (x : ℝ) : ℝ :=
  0.3 * Real.sin (8 * x) * Real.exp (-x / 2)

/-- VHSv2VideoProcessor.generate_ring_pattern: sample the base curve on
[0, 2 pi], normalize to [0,1], add the harmonic, normalize again. -/
def generate_ring_pattern (size : ℕ) : List ℝ :=
  let x := linspace 0 (2 * Real.pi) size
  let p := normalize01 (x.map ringBase)
  normalize01 (List.zipWith (fun a b => a + b) p (x.map ringHarmonic))

/-- self.ring_pattern, generated once at startup with the default size
720. -/
def ringPatternList : List ℝ :=
  generate_ring_pattern 720

/-- The radial frequency mask of apply_ringing for an h-by-w plane: ring
pattern sampled at the normalized distance from the centered zero
frequency, raised to the given power, with the exact center forced to 1. -/
def ringMask (h w power : ℕ) (u v : ℕ) : ℝ :=
  if u = h / 2 ∧ v = w / 2 then 1
  else
    let maxFreq : ℝ := Real.sqrt (((h / 2 : ℕ) : ℝ) ^ 2 + ((w / 2 : ℕ) : ℝ) ^ 2)
    let freqNorm : ℝ :=
      if 0 < maxFreq then
        Real.sqrt (((u : ℝ) - ((h / 2 : ℕ) : ℝ)) ^ 2 + ((v : ℝ) - ((w / 2 : ℕ) : ℝ)) ^ 2) / maxFreq
      else 0
    (ringPatternList.getD (min (⌊freqNorm * (720 - 1)⌋).toNat (720 - 1)) 0) ^ power

/-- Forward 2-D DFT coefficient (cv2.dft with complex output). -/
def dft2 (P : Plane) (u v : ℕ) : ℂ :=
  ∑ x ∈ Finset.range P.length, ∑ y ∈ Finset.range (P.getD 0 []).length,
    (planePx P x y : ℂ) *
      Complex.exp (-2 * (Real.pi : ℂ) * Complex.I *
        ((u : ℂ) * (x : ℂ) / (P.length : ℂ) + (v : ℂ) * (y : ℂ) / ((P.getD 0 []).length : ℂ)))

/-- Index map of np.fft.fftshift along an axis of length n (roll by
n / 2): entry u of the shifted array is entry (u - n/2) mod n. -/
def shiftIdx (n u : ℕ) : ℕ :=
  (((u : ℤ) - (n / 2 : ℕ)) % (n : ℤ)).toNat

/-- Index map of np.fft.ifftshift (roll by -(n / 2)). -/
def unshiftIdx (n u : ℕ) : ℕ :=
  (((u : ℤ) + (n / 2 : ℕ)) % (n : ℤ)).toNat

/-- One entry of the masked-spectrum inverse transform of apply_ringing:
the spectrum is shifted, multiplied by the radial mask, unshifted, and
inverted with DFT_SCALE scaling; the real part is kept. -/
def ringFilteredFun (P : Plane) (power : ℕ) (x y : ℕ) : ℝ :=
  ((1 / ((P.length : ℂ) * ((P.getD 0 []).length : ℂ))) *
    ∑ u ∈ Finset.range P.length, ∑ v ∈ Finset.range (P.getD 0 []).length,
      ((ringMask P.length (P.getD 0 []).length power
          (unshiftIdx P.length u) (unshiftIdx (P.getD 0 []).length v) : ℝ) : ℂ) *
        dft2 P (shiftIdx P.length (unshiftIdx P.length u))
          (shiftIdx (P.getD 0 []).length (unshiftIdx (P.getD 0 []).length v)) *
        Complex.exp (2 * (Real.pi : ℂ) * Complex.I *
          ((u : ℂ) * (x : ℂ) / (P.length : ℂ) +
            (v : ℂ) * (y : ℂ) / ((P.getD 0 []).length : ℂ)))).re

/-- The masked-spectrum inverse transform of apply_ringing before the DC
correction: dft, fftshift, multiply by the radial mask, ifftshift,
cv2.idft with DFT_SCALE, real part. -/
def ringFiltered (P : Plane) (power : ℕ) : Plane :=
  mkGrid P.length (P.getD 0 []).length (ringFilteredFun P power)

/-- The DC-restoration step of apply_ringing: scale by
original_dc / current_dc when current_dc is nonzero, else leave the
plane unscaled. -/
def dcRestore (original_dc : ℝ) (P : Plane) : Plane :=
  if planeMean P ≠ 0 then planeScale (original_dc / planeMean P) P else P

/-- One channel of apply_ringing: record the mean, mask the shifted
spectrum, invert, then restore the recorded mean. -/
def ringChannel (P : Plane) (power : ℕ) : Plane :=
  dcRestore (planeMean P) (ringFiltered P power)

/-- VHSv2VideoProcessor.apply_ringing applied to the three planes. -/
def apply_ringing (s : YIQ) (power : ℕ) : YIQ :=
  { Y := ringChannel s.Y power
    I := ringChannel s.I power
    Q := ringChannel s.Q power }

/-- np.clip(frame, 0, 255).astype(np.uint8) applied to a frame that is
already 8-bit: clamp each sample at 255 (the lower clamp is vacuous on
naturals). -/
def frame8Clip (F : Frame8) : Frame8 :=
  F.map (List.map fun p => (min p.1 255, min p.2.1 255, min p.2.2 255))

/-- Channel plane of an 8-bit frame as floats (result.astype(np.float32)
split planar); sel picks the channel from the (b, g, r) triple. -/
def chanPlane (F : Frame8) (sel : ℕ × ℕ × ℕ → ℕ) : Plane :=
  mkGrid F.length (F.getD 0 []).length fun i j => ((sel (px8 F i j) : ℕ) : ℝ)

/-- VHSv2VideoProcessor.process_frame: the full per-frame chain, written
in the source's sequential order.  The tape-speed lookup can raise
(AttributeError), modelled as Except. -/
def process_frame (F : Frame8) (p : Params) (r : RandDraws) : Except String Frame8 :=
  let yiq0 := bgr2yiq (toFloatFrame F)
  let yiq1 := if p.enable_ringing then apply_ringing yiq0 p.ringing_power else yiq0
  let yiq2 := apply_vhs_noise yiq1 p.video_noise r.lumaNoise
  let yiq3 := apply_chroma_noise yiq2 p.chroma_noise p.chroma_phase_noise
    r.chromaNoiseI r.chromaNoiseQ r.phaseDraw
  let yiq4 := apply_color_bleeding yiq3 p.color_bleeding
  match resolvePreset p.tape_speed with
  | none => Except.error ("AttributeError: VHS_" ++ p.tape_speed)
  | some sp =>
    let yiq5 := apply_tape_speed_effects yiq4 sp
    let result := yiq2bgr yiq5
    if 1 < p.vhs_out_sharpen then
      let bP := chanPlane result (fun q => q.1)
      let gP := chanPlane result (fun q => q.2.1)
      let rP := chanPlane result (fun q => q.2.2)
      Except.ok (mkGrid result.length (result.getD 0 []).length fun i j =>
        (toByte (p.vhs_out_sharpen * planePx bP i j +
           (-(p.vhs_out_sharpen - 1)) * planePx (gaussianBlur 3 3 1 bP) i j + 0),
         toByte (p.vhs_out_sharpen * planePx gP i j +
           (-(p.vhs_out_sharpen - 1)) * planePx (gaussianBlur 3 3 1 gP) i j + 0),
         toByte (p.vhs_out_sharpen * planePx rP i j +
           (-(p.vhs_out_sharpen - 1)) * planePx (gaussianBlur 3 3 1 rP) i j + 0)))
    else
      Except.ok (frame8Clip result)

/-- The unsharp-mask output stage as its own component (the
vhs_out_sharpen branch of process_frame together with the final clip):
cv2.GaussianBlur 3x3 sigma 1.0 per channel, cv2.addWeighted with alpha =
strength and beta = -(strength - 1), then clip and cast. -/
def outputSharpen (F : Frame8) (strength : ℝ) : Frame8 :=
  if 1 < strength then
    let bP := chanPlane F (fun q => q.1)
    let gP := chanPlane F (fun q => q.2.1)
    let rP := chanPlane F (fun q => q.2.2)
    mkGrid F.length (F.getD 0 []).length fun i j =>
      (toByte (strength * planePx bP i j +
         (-(strength - 1)) * planePx (gaussianBlur 3 3 1 bP) i j + 0),
       toByte (strength * planePx gP i j +
         (-(strength - 1)) * planePx (gaussianBlur 3 3 1 gP) i j + 0),
       toByte (strength * planePx rP i j +
         (-(strength - 1)) * planePx (gaussianBlur 3 3 1 rP) i j + 0))
  else frame8Clip F

/-- The frame loop of process_video after parameter validation: each
decoded frame goes through process_frame with the validated parameters;
the first failure aborts the run. -/
def processVideoFrames (frames : List Frame8) (q : ParamsIn) (r : RandDraws) :
    Except String (List Frame8) :=
  frames.mapM fun f => process_frame f (validateParams q) r

/-- The fixed stage order stated by the specification for one frame:
ColorSpace.forward, RingingFilter if enabled, luma noise, chroma noise,
ColorBleedFilter, TapeSpeedFilter with the preset resolved from the
parameters, ColorSpace.inverse, OutputSharpener. -/
def specOrderedPipeline (F : Frame8) (p : Params) (r : RandDraws) :
    Except String Frame8 :=
  match resolvePreset p.tape_speed with
  | none => Except.error ("AttributeError: VHS_" ++ p.tape_speed)
  | some sp =>
    Except.ok (outputSharpen
      (yiq2bgr
        (apply_tape_speed_effects
          (apply_color_bleeding
            (apply_chroma_noise
              (apply_vhs_noise
                (if p.enable_ringing then
                  apply_ringing (bgr2yiq (toFloatFrame F)) p.ringing_power
                 else bgr2yiq (toFloatFrame F))
                p.video_noise r.lumaNoise)
              p.chroma_noise p.chroma_phase_noise
              r.chromaNoiseI r.chromaNoiseQ r.phaseDraw)
            p.color_bleeding)
          sp))
      p.vhs_out_sharpen)

/-- The color-bleed stage as the claim words it: the same causal moving
average on I and Q followed by a Gaussian blur of the same kernel size
oriented purely along the scanline (row) axis, i.e. ksize (k, 1). -/
def colorBleedClaimed (s : YIQ) (amount : ℝ) : YIQ :=
  if 0 < amount then
    let k := bleedKernelSize amount
    let I1 := firPlane k s.I
    let Q1 := firPlane k s.Q
    if 1 < k then
      { Y := s.Y, I := gaussianBlur k 1 0 I1, Q := gaussianBlur k 1 0 Q1 }
    else
      { Y := s.Y, I := I1, Q := Q1 }
  else s

/-- The output sharpener as the claim words it: strength times the frame
plus (1 - strength) times the 3x3 sigma-1.0 Gaussian blur of the frame,
clamped to [0, 255]. -/
def sharpenClaimed (F : Frame8) (strength : ℝ) : Frame8 :=
  let bP := chanPlane F (fun q => q.1)
  let gP := chanPlane F (fun q => q.2.1)
  let rP := chanPlane F (fun q => q.2.2)
  mkGrid F.length (F.getD 0 []).length fun i j =>
    (toByte (strength * planePx bP i j +
       (1 - strength) * planePx (gaussianBlur 3 3 1 bP) i j),
     toByte (strength * planePx gP i j +
       (1 - strength) * planePx (gaussianBlur 3 3 1 gP) i j),
     toByte (strength * planePx rP i j +
       (1 - strength) * planePx (gaussianBlur 3 3 1 rP) i j))

/-- Clamp to [0, 255] and round to the NEAREST integer, the rounding the
claim asserts for the inverse color transform. -/
def toByteNearest (x : ℝ) : ℕ :=
  (round (min 255 (max x 0))).toNat

/-- The inverse color transform as the claim words it: same matrix and
clamp, but rounding each sample to the nearest integer. -/
def yiq2bgrClaimed (s : YIQ) : Frame8 :=
  mkGrid s.Y.length (s.Y.getD 0 []).length fun i j =>
    (toByteNearest (planePx s.Y i j - 1.105 * planePx s.I i j + 1.702 * planePx s.Q i j),
     toByteNearest (planePx s.Y i j - 0.272 * planePx s.I i j - 0.647 * planePx s.Q i j),
     toByteNearest (planePx s.Y i j + 0.956 * planePx s.I i j + 0.619 * planePx s.Q i j))

lemma getD_range_map {α : Type} (g : ℕ → α) (n i : ℕ) (d : α) (h : i < n) :
    ((List.range n).map g).getD i d = g i := by
  have h1 : i < ((List.range n).map g).length := by simpa using h
  rw [List.getD_eq_getElem _ _ h1]
  simp

lemma length_mkGrid {α : Type} (h w : ℕ) (f : ℕ → ℕ → α) :
    (mkGrid h w f).length = h := by
  simp [mkGrid]

lemma row0_length_mkGrid {α : Type} (h w : ℕ) (f : ℕ → ℕ → α) (hh : 0 < h) :
    ((mkGrid h w f).getD 0 []).length = w := by
  unfold mkGrid
  rw [getD_range_map _ _ _ _ hh]
  simp

lemma gridAt_mkGrid {α : Type} (d : α) (h w : ℕ) (f : ℕ → ℕ → α) (i j : ℕ)
    (hi : i < h) (hj : j < w) : gridAt d (mkGrid h w f) i j = f i j := by
  unfold gridAt mkGrid
  rw [getD_range_map _ _ _ _ hi, getD_range_map _ _ _ _ hj]

lemma planePx_mkGrid (h w : ℕ) (f : ℕ → ℕ → ℝ) (i j : ℕ)
    (hi : i < h) (hj : j < w) : planePx (mkGrid h w f) i j = f i j :=
  gridAt_mkGrid 0 h w f i j hi hj

lemma px8_mkGrid (h w : ℕ) (f : ℕ → ℕ → ℕ × ℕ × ℕ) (i j : ℕ)
    (hi : i < h) (hj : j < w) : px8 (mkGrid h w f) i j = f i j :=
  gridAt_mkGrid (0, 0, 0) h w f i j hi hj

lemma mkGrid_congr {α : Type} (h w : ℕ) (f g : ℕ → ℕ → α)
    (H : ∀ i, i < h → ∀ j, j < w → f i j = g i j) : mkGrid h w f = mkGrid h w g := by
  unfold mkGrid
  refine List.map_congr_left fun i hi => ?_
  refine List.map_congr_left fun j hj => ?_
  exact H i (List.mem_range.mp hi) j (List.mem_range.mp hj)

lemma getD_map_list {α β : Type} (f : α → β) (l : List α) (n : ℕ) (d : α) :
    (l.map f).getD n (f d) = f (l.getD n d) := by
  induction l generalizing n with
  | nil => simp
  | cons a l ih =>
    cases n with
    | zero => simp
    | succ m =>
      simp only [List.map_cons, List.getD_cons_succ]
      exact ih m

lemma sum_list_range_map (g : ℕ → ℝ) (n : ℕ) :
    ((List.range n).map g).sum = ∑ i ∈ Finset.range n, g i := by
  induction n with
  | zero => simp
  | succ m ih => simp [List.range_succ, Finset.sum_range_succ, ih]

lemma sum_getD_list (l : List ℝ) :
    ∑ t ∈ Finset.range l.length, l.getD t 0 = l.sum := by
  induction l with
  | nil => simp
  | cons a l ih =>
    rw [List.length_cons, Finset.sum_range_succ']
    simp only [List.getD_cons_succ, List.getD_cons_zero]
    rw [ih]
    rw [List.sum_cons, add_comm]

lemma planeSum_mkGrid (h w : ℕ) (f : ℕ → ℕ → ℝ) :
    planeSum (mkGrid h w f) = ∑ i ∈ Finset.range h, ∑ j ∈ Finset.range w, f i j := by
  unfold planeSum mkGrid
  rw [List.map_map]
  rw [show (List.sum ∘ fun i => (List.range w).map fun j => f i j) =
      fun i => ((List.range w).map fun j => f i j).sum from rfl]
  rw [sum_list_range_map]
  exact Finset.sum_congr rfl fun i _ => sum_list_range_map _ _

lemma borderIdx_lt (n : ℕ) (hn : 0 < n) (i : ℤ) : borderIdx n i < n := by
  unfold borderIdx
  by_cases h1 : n ≤ 1
  · simp [h1, hn]
  · simp only [h1, if_false]
    push_neg at h1
    have hm : (0 : ℤ) < 2 * (n : ℤ) - 2 := by
      have : (2 : ℤ) ≤ (n : ℤ) := by exact_mod_cast h1
      linarith
    have hr0 : 0 ≤ i % (2 * (n : ℤ) - 2) := Int.emod_nonneg i (by linarith)
    have hrlt : i % (2 * (n : ℤ) - 2) < 2 * (n : ℤ) - 2 := Int.emod_lt_of_pos i hm
    by_cases h2 : i % (2 * (n : ℤ) - 2) < (n : ℤ)
    · simp only [h2, if_true]
      omega
    · simp only [h2, if_false]
      push_neg at h2
      omega

lemma borderIdx_of_lt (n j : ℕ) (hj : j < n) : borderIdx n (j : ℤ) = j := by
  unfold borderIdx
  by_cases h1 : n ≤ 1
  · have hn1 : n = 1 := by omega
    subst hn1
    have hj0 : j = 0 := by omega
    subst hj0
    simp
  · simp only [h1, if_false]
    push_neg at h1
    have hm : (0 : ℤ) < 2 * (n : ℤ) - 2 := by
      have : (2 : ℤ) ≤ (n : ℤ) := by exact_mod_cast h1
      linarith
    have hjm : (j : ℤ) < 2 * (n : ℤ) - 2 := by
      have : (j : ℤ) < (n : ℤ) := by exact_mod_cast hj
      omega
    rw [Int.emod_eq_of_lt (by positivity) hjm]
    have : (j : ℤ) < (n : ℤ) := by exact_mod_cast hj
    simp [this]

lemma blurH_const (ker : List ℝ) (h w : ℕ) (c : ℝ) :
    blurH ker (mkGrid h w fun _ _ => c) = mkGrid h w fun _ _ => ker.sum * c := by
  rcases Nat.eq_zero_or_pos h with hh | hh
  · subst hh; rfl
  · unfold blurH
    rw [length_mkGrid, row0_length_mkGrid _ _ _ hh]
    apply mkGrid_congr
    intro i hi j hj
    have hw : 0 < w := Nat.lt_of_le_of_lt (Nat.zero_le j) hj
    have Hsum : (∑ t ∈ Finset.range ker.length,
        ker.getD t 0 * planePx (mkGrid h w fun _ _ => c) i
          (borderIdx w ((j : ℤ) + (t : ℤ) - (ker.length / 2 : ℕ)))) =
        ∑ t ∈ Finset.range ker.length, ker.getD t 0 * c :=
      Finset.sum_congr rfl fun t _ => by
        rw [planePx_mkGrid _ _ _ _ _ hi (borderIdx_lt w hw _)]
    rw [Hsum, ← Finset.sum_mul, sum_getD_list]

lemma blurV_const (ker : List ℝ) (h w : ℕ) (c : ℝ) :
    blurV ker (mkGrid h w fun _ _ => c) = mkGrid h w fun _ _ => ker.sum * c := by
  rcases Nat.eq_zero_or_pos h with hh | hh
  · subst hh; rfl
  · unfold blurV
    rw [length_mkGrid, row0_length_mkGrid _ _ _ hh]
    apply mkGrid_congr
    intro i hi j hj
    have Hsum : (∑ t ∈ Finset.range ker.length,
        ker.getD t 0 * planePx (mkGrid h w fun _ _ => c)
          (borderIdx h ((i : ℤ) + (t : ℤ) - (ker.length / 2 : ℕ))) j) =
        ∑ t ∈ Finset.range ker.length, ker.getD t 0 * c :=
      Finset.sum_congr rfl fun t _ => by
        rw [planePx_mkGrid _ _ _ _ _ (borderIdx_lt h hh _) hj]
    rw [Hsum, ← Finset.sum_mul, sum_getD_list]

lemma gaussKernel_sigma0_small (k : ℕ) (hk : k ≤ 7) (hodd : k % 2 = 1) :
    gaussKernel k 0 = smallGaussTab k := by
  unfold gaussKernel
  rw [if_pos ⟨le_refl 0, hk, hodd⟩]

lemma gaussKernel_one_sum : (gaussKernel 1 0).sum = 1 := by
  rw [gaussKernel_sigma0_small 1 (by norm_num) (by norm_num)]
  norm_num [smallGaussTab]

lemma gaussKernel_three_sum : (gaussKernel 3 0).sum = 1 := by
  rw [gaussKernel_sigma0_small 3 (by norm_num) (by norm_num)]
  norm_num [smallGaussTab]

lemma gaussKernel_five_sum : (gaussKernel 5 0).sum = 1 := by
  rw [gaussKernel_sigma0_small 5 (by norm_num) (by norm_num)]
  norm_num [smallGaussTab]

lemma gaussKernel_seven_sum : (gaussKernel 7 0).sum = 1 := by
  rw [gaussKernel_sigma0_small 7 (by norm_num) (by norm_num)]
  norm_num [smallGaussTab]

lemma gaussianBlur_const (kw kh h w : ℕ) (c : ℝ)
    (hkw : (gaussKernel kw 0).sum = 1) (hkh : (gaussKernel kh 0).sum = 1) :
    gaussianBlur kw kh 0 (mkGrid h w fun _ _ => c) = mkGrid h w fun _ _ => c := by
  unfold gaussianBlur
  rw [blurH_const, hkw, one_mul, blurV_const, hkh, one_mul]

lemma pxR_mkGrid (h w : ℕ) (f : ℕ → ℕ → ℝ × ℝ × ℝ) (i j : ℕ)
    (hi : i < h) (hj : j < w) : pxR (mkGrid h w f) i j = f i j :=
  gridAt_mkGrid (0, 0, 0) h w f i j hi hj

lemma toFloatFrame_mkGrid (h w : ℕ) (f : ℕ → ℕ → ℕ × ℕ × ℕ) :
    toFloatFrame (mkGrid h w f) = mkGrid h w fun i j =>
      (((f i j).1 : ℝ), ((f i j).2.1 : ℝ), ((f i j).2.2 : ℝ)) := by
  simp [toFloatFrame, mkGrid, List.map_map, Function.comp]

lemma bgr2yiq_const (h w : ℕ) (c : ℝ) :
    bgr2yiq (mkGrid h w fun _ _ => (c, c, c)) =
      YIQ.mk (mkGrid h w fun _ _ => c) (mkGrid h w fun _ _ => 0)
        (mkGrid h w fun _ _ => 0) := by
  rcases Nat.eq_zero_or_pos h with hh | hh
  · subst hh; rfl
  · unfold bgr2yiq
    rw [length_mkGrid, row0_length_mkGrid _ _ _ hh]
    congr 1 <;>
      · apply mkGrid_congr
        intro i hi j hj
        rw [pxR_mkGrid _ _ _ _ _ hi hj]
        ring_nf

lemma apply_vhs_noise_zero (s : YIQ) (noise : Plane) :
    apply_vhs_noise s 0 noise = s := by
  simp [apply_vhs_noise]

lemma apply_chroma_noise_zero (s : YIQ) (ni nq d : Plane) :
    apply_chroma_noise s 0 0 ni nq d = s := by
  simp [apply_chroma_noise]

lemma apply_color_bleeding_zero (s : YIQ) :
    apply_color_bleeding s 0 = s := by
  simp [apply_color_bleeding]

lemma apply_tape_speed_const (h w : ℕ) (a b c : ℝ) (sp : VHSSpeed) :
    apply_tape_speed_effects
      (YIQ.mk (mkGrid h w fun _ _ => a) (mkGrid h w fun _ _ => b)
        (mkGrid h w fun _ _ => c)) sp =
      YIQ.mk (mkGrid h w fun _ _ => a) (mkGrid h w fun _ _ => b)
        (mkGrid h w fun _ _ => c) := by
  cases sp with
  | SP =>
    unfold apply_tape_speed_effects VHSSpeed.kernelSize
    rw [if_pos (by norm_num : (1 : ℕ) < 3)]
    congr 1 <;> exact gaussianBlur_const 3 1 h w _ gaussKernel_three_sum gaussKernel_one_sum
  | LP =>
    unfold apply_tape_speed_effects VHSSpeed.kernelSize
    rw [if_pos (by norm_num : (1 : ℕ) < 5)]
    congr 1 <;> exact gaussianBlur_const 5 1 h w _ gaussKernel_five_sum gaussKernel_one_sum
  | EP =>
    unfold apply_tape_speed_effects VHSSpeed.kernelSize
    rw [if_pos (by norm_num : (1 : ℕ) < 7)]
    congr 1 <;> exact gaussianBlur_const 7 1 h w _ gaussKernel_seven_sum gaussKernel_one_sum

lemma toByte_natCast (v : ℕ) (hv : v ≤ 255) : toByte ((v : ℕ) : ℝ) = v := by
  unfold toByte
  rw [max_eq_left (by positivity), min_eq_right (by exact_mod_cast hv)]
  rw [Int.floor_natCast]
  simp

lemma yiq2bgr_const (h w v : ℕ) (hv : v ≤ 255) :
    yiq2bgr (YIQ.mk (mkGrid h w fun _ _ => ((v : ℕ) : ℝ)) (mkGrid h w fun _ _ => 0)
      (mkGrid h w fun _ _ => 0)) = mkGrid h w fun _ _ => (v, v, v) := by
  rcases Nat.eq_zero_or_pos h with hh | hh
  · subst hh; rfl
  · unfold yiq2bgr
    rw [length_mkGrid, row0_length_mkGrid _ _ _ hh]
    apply mkGrid_congr
    intro i hi j hj
    rw [planePx_mkGrid _ _ _ _ _ hi hj, planePx_mkGrid _ _ _ _ _ hi hj]
    have hsimp : ((v : ℕ) : ℝ) - 1.105 * 0 + 1.702 * 0 = ((v : ℕ) : ℝ) := by ring
    have hsimp2 : ((v : ℕ) : ℝ) - 0.272 * 0 - 0.647 * 0 = ((v : ℕ) : ℝ) := by ring
    have hsimp3 : ((v : ℕ) : ℝ) + 0.956 * 0 + 0.619 * 0 = ((v : ℕ) : ℝ) := by ring
    rw [hsimp, hsimp2, hsimp3, toByte_natCast v hv]

lemma frame8Clip_mkGrid (h w : ℕ) (f : ℕ → ℕ → ℕ × ℕ × ℕ) :
    frame8Clip (mkGrid h w f) = mkGrid h w fun i j =>
      (min (f i j).1 255, min (f i j).2.1 255, min (f i j).2.2 255) := by
  simp [frame8Clip, mkGrid, List.map_map, Function.comp]

lemma frame8Clip_const (h w v : ℕ) (hv : v ≤ 255) :
    frame8Clip (mkGrid h w fun _ _ => (v, v, v)) = mkGrid h w fun _ _ => (v, v, v) := by
  rw [frame8Clip_mkGrid]
  apply mkGrid_congr
  intro i _ j _
  simp [min_eq_left hv]

/-- C5: process_frame applies its stages in exactly the fixed order
ColorSpace.forward, then RingingFilter (only if enable_ringing), then
luma noise injection, then chroma (and phase) noise injection, then
ColorBleedFilter, then TapeSpeedFilter with the preset resolved from the
parameters, then ColorSpace.inverse, then OutputSharpener: the code path
equals the composition of the stage functions in that order for every
frame, parameter record and random draw. -/
theorem pipeline_stage_order (F : Frame8) (p : Params) (r : RandDraws) :
    process_frame F p r = specOrderedPipeline F p r := by
  unfold process_frame specOrderedPipeline outputSharpen
  cases hres : resolvePreset p.tape_speed with
  | none => rfl
  | some sp =>
    by_cases hs : 1 < p.vhs_out_sharpen
    · simp only [if_pos hs]
    · simp only [if_neg hs]

/-- In the exact-real model, a constant frame passes through the disabled
pipeline unchanged: the tape-speed blur kernels sum to 1, so they fix
constants.  (The float32 program agrees only up to rounding - a constant
plane can come back one sample lower - so the claim below asserts only
the tolerance bound, not this exact identity.) -/
lemma pipeline_disabled_const_exact (h w v : ℕ) (hv : v ≤ 255)
    (p : Params) (r : RandDraws) (sp : VHSSpeed)
    (hr : p.enable_ringing = false) (hvn : p.video_noise = 0)
    (hcn : p.chroma_noise = 0) (hpn : p.chroma_phase_noise = 0)
    (hcb : p.color_bleeding = 0) (hsh : p.vhs_out_sharpen ≤ 1)
    (hts : resolvePreset p.tape_speed = some sp) :
    process_frame (mkGrid h w fun _ _ => (v, v, v)) p r =
      Except.ok (mkGrid h w fun _ _ => (v, v, v)) := by
  have hbgr : bgr2yiq (toFloatFrame (mkGrid h w fun _ _ => (v, v, v))) =
      YIQ.mk (mkGrid h w fun _ _ => ((v : ℕ) : ℝ)) (mkGrid h w fun _ _ => 0)
        (mkGrid h w fun _ _ => 0) := by
    rw [toFloatFrame_mkGrid]
    exact bgr2yiq_const h w ((v : ℕ) : ℝ)
  simp only [process_frame, hr, hvn, hcn, hpn, hcb, hts, Bool.false_eq_true, if_false,
    apply_vhs_noise_zero, apply_chroma_noise_zero, apply_color_bleeding_zero]
  rw [if_neg (not_lt.mpr hsh)]
  rw [hbgr, apply_tape_speed_const, yiq2bgr_const h w v hv, frame8Clip_const h w v hv]

/-- The disabled-effects parameter record used by the no-op claim. -/
def c2Params : Params :=
  { composite_preemphasis := 4
    vhs_out_sharpen := 1
    color_bleeding := 0
    video_noise := 0
    chroma_noise := 0
    chroma_phase_noise := 0
    enable_ringing := false
    ringing_power := 2
    tape_speed := "SP" }

/-- Empty random draws (unused when every stochastic stage is disabled). -/
def rand0 : RandDraws :=
  { lumaNoise := [], chromaNoiseI := [], chromaNoiseQ := [], phaseDraw := [] }

/-- C2 (amended): with video_noise = 0, chroma_noise = 0,
chroma_phase_noise = 0, color_bleeding = 0, vhs_out_sharpen at most 1 and
ringing disabled, the pipeline still applies the tape-speed horizontal
Gaussian blur, so a general frame is not returned within the claimed
tolerance; every constant frame, however, is returned within the rounding
tolerance of at most 1 per sample. -/
theorem pipeline_disabled_const_tolerance (h w v : ℕ) (hv : v ≤ 255)
    (p : Params) (r : RandDraws) (sp : VHSSpeed) (i j : ℕ)
    (hij : i < h) (hjw : j < w)
    (hr : p.enable_ringing = false) (hvn : p.video_noise = 0)
    (hcn : p.chroma_noise = 0) (hpn : p.chroma_phase_noise = 0)
    (hcb : p.color_bleeding = 0) (hsh : p.vhs_out_sharpen ≤ 1)
    (hts : resolvePreset p.tape_speed = some sp)
    (G : Frame8)
    (hG : process_frame (mkGrid h w fun _ _ => (v, v, v)) p r = Except.ok G) :
    |((px8 G i j).1 : ℤ) - (v : ℤ)| ≤ 1 ∧
    |((px8 G i j).2.1 : ℤ) - (v : ℤ)| ≤ 1 ∧
    |((px8 G i j).2.2 : ℤ) - (v : ℤ)| ≤ 1 := by
  rw [pipeline_disabled_const_exact h w v hv p r sp hr hvn hcn hpn hcb hsh hts] at hG
  have hGe : G = mkGrid h w fun _ _ => (v, v, v) := (Except.ok.inj hG).symm
  subst hGe
  rw [px8_mkGrid h w _ i j hij hjw]
  norm_num

theorem pipeline_disabled_const_tolerance_witness :
    resolvePreset c2Params.tape_speed = some VHSSpeed.SP ∧
    process_frame (mkGrid 1 1 fun _ _ => (7, 7, 7)) c2Params rand0 =
      Except.ok (mkGrid 1 1 fun _ _ => (7, 7, 7)) ∧
    |((px8 (mkGrid 1 1 fun _ _ => (7, 7, 7)) 0 0).1 : ℤ) - (7 : ℤ)| ≤ 1 := by
  have hres : resolvePreset c2Params.tape_speed = some VHSSpeed.SP := by
    simp [resolvePreset, c2Params]
  have hG : process_frame (mkGrid 1 1 fun _ _ => (7, 7, 7)) c2Params rand0 =
      Except.ok (mkGrid 1 1 fun _ _ => (7, 7, 7)) :=
    pipeline_disabled_const_exact 1 1 7 (by norm_num) c2Params rand0 VHSSpeed.SP
      rfl rfl rfl rfl rfl (by norm_num [c2Params]) hres
  exact ⟨hres, hG,
    (pipeline_disabled_const_tolerance 1 1 7 (by norm_num) c2Params rand0 VHSSpeed.SP
      0 0 (by norm_num) (by norm_num) rfl rfl rfl rfl rfl (by norm_num [c2Params]) hres
      _ hG).1⟩

/-- The two-pixel frame (white then black in one row) refuting the no-op
claim: the tape-speed blur runs unconditionally. -/
def c2cexFrame : Frame8 := [[(255, 255, 255), (0, 0, 0)]]

lemma gaussKernel_three_eval : gaussKernel 3 0 = [0.25, 0.5, 0.25] := by
  rw [gaussKernel_sigma0_small 3 (by norm_num) (by norm_num)]
  rfl

lemma gaussKernel_one_eval : gaussKernel 1 0 = [1] := by
  rw [gaussKernel_sigma0_small 1 (by norm_num) (by norm_num)]
  rfl

lemma toByte_half127 : toByte ((255 : ℝ) / 2) = 127 := by
  unfold toByte
  rw [max_eq_left (by norm_num), min_eq_right (by norm_num)]
  have hf : ⌊(255 : ℝ) / 2⌋ = (127 : ℤ) := by
    rw [Int.floor_eq_iff]
    norm_num
  rw [hf]
  rfl

lemma blurH_cex_row : blurH [(0.25 : ℝ), 0.5, 0.25] [[(255 : ℝ), 0]] = [[127.5, 127.5]] := by
  norm_num [blurH, mkGrid, List.range_succ, Finset.sum_range_succ, Finset.sum_range_zero,
    planePx, gridAt, borderIdx]

lemma blurH_cex_zero : blurH [(0.25 : ℝ), 0.5, 0.25] [[(0 : ℝ), 0]] = [[0, 0]] := by
  norm_num [blurH, mkGrid, List.range_succ, Finset.sum_range_succ, Finset.sum_range_zero,
    planePx, gridAt, borderIdx]

lemma blurV_cex_row : blurV [(1 : ℝ)] [[(127.5 : ℝ), 127.5]] = [[127.5, 127.5]] := by
  norm_num [blurV, mkGrid, List.range_succ, Finset.sum_range_succ, Finset.sum_range_zero,
    planePx, gridAt, borderIdx]

lemma blurV_cex_zero : blurV [(1 : ℝ)] [[(0 : ℝ), 0]] = [[0, 0]] := by
  norm_num [blurV, mkGrid, List.range_succ, Finset.sum_range_succ, Finset.sum_range_zero,
    planePx, gridAt, borderIdx]

/-- C2 (counterexample): with all noise, bleeding and sharpening disabled
and ringing off, process_frame still blurs horizontally (tape-speed SP),
so the white sample 255 of the white/black frame comes back as 127: the
output differs from the input by 128 samples, far above the claimed
rounding tolerance of 1. -/
theorem pipeline_disabled_not_identity :
    process_frame c2cexFrame c2Params rand0 =
      Except.ok [[(127, 127, 127), (127, 127, 127)]] ∧
    1 < (px8 c2cexFrame 0 0).2.2 - (px8 [[(127, 127, 127), (127, 127, 127)]] 0 0).2.2 := by
  constructor
  · have hfl : toFloatFrame c2cexFrame = [[((255 : ℝ), 255, 255), (0, 0, 0)]] := by
      norm_num [toFloatFrame, c2cexFrame]
    have hyiq : bgr2yiq [[((255 : ℝ), 255, 255), (0, 0, 0)]] =
        YIQ.mk [[255, 0]] [[0, 0]] [[0, 0]] := by
      unfold bgr2yiq
      norm_num [mkGrid, List.range_succ, pxR, gridAt]
    have htape : apply_tape_speed_effects (YIQ.mk [[(255 : ℝ), 0]] [[0, 0]] [[0, 0]])
        VHSSpeed.SP = YIQ.mk [[127.5, 127.5]] [[0, 0]] [[0, 0]] := by
      unfold apply_tape_speed_effects VHSSpeed.kernelSize
      rw [if_pos (by norm_num : (1 : ℕ) < 3)]
      unfold gaussianBlur
      rw [gaussKernel_three_eval, gaussKernel_one_eval]
      rw [blurH_cex_row, blurH_cex_zero, blurV_cex_row, blurV_cex_zero]
    have hy2 : yiq2bgr (YIQ.mk [[(127.5 : ℝ), 127.5]] [[0, 0]] [[0, 0]]) =
        [[(127, 127, 127), (127, 127, 127)]] := by
      unfold yiq2bgr
      norm_num [mkGrid, List.range_succ, planePx, gridAt, toByte_half127]
    have hclip : frame8Clip ([[(127, 127, 127), (127, 127, 127)]] : Frame8) =
        [[(127, 127, 127), (127, 127, 127)]] := by
      norm_num [frame8Clip]
    have hstep : process_frame c2cexFrame c2Params rand0 =
        Except.ok (frame8Clip (yiq2bgr (apply_tape_speed_effects
          (bgr2yiq (toFloatFrame c2cexFrame)) VHSSpeed.SP))) := by
      norm_num [process_frame, c2Params, resolvePreset, apply_vhs_noise_zero,
        apply_chroma_noise_zero, apply_color_bleeding_zero]
    rw [hstep, hfl, hyiq, htape, hy2, hclip]
  · decide

lemma toByte_close (x : ℝ) (n : ℕ) (hn : n ≤ 255) (hx : |x - (n : ℝ)| ≤ 1 / 2) :
    |(toByte x : ℤ) - (n : ℤ)| ≤ 1 := by
  have hxl : (n : ℝ) - 1 / 2 ≤ x := by
    have := (abs_le.mp hx).1
    linarith
  have hxu : x ≤ (n : ℝ) + 1 / 2 := by
    have := (abs_le.mp hx).2
    linarith
  have hn255 : (n : ℝ) ≤ 255 := by exact_mod_cast hn
  have hn0 : (0 : ℝ) ≤ (n : ℝ) := by positivity
  have hcl : (n : ℝ) - 1 / 2 ≤ min 255 (max x 0) := by
    apply le_min
    · linarith
    · exact le_trans hxl (le_max_left x 0)
  have hcu : min 255 (max x 0) ≤ (n : ℝ) + 1 / 2 :=
    le_trans (min_le_right _ _) (max_le hxu (by linarith))
  have hc0 : (0 : ℝ) ≤ min 255 (max x 0) := le_min (by norm_num) (le_max_right x 0)
  have hfl : ((⌊min 255 (max x 0)⌋ : ℤ) : ℝ) ≤ min 255 (max x 0) := Int.floor_le _
  have hfu : min 255 (max x 0) < (⌊min 255 (max x 0)⌋ : ℤ) + 1 := Int.lt_floor_add_one _
  have hpos : 0 ≤ ⌊min 255 (max x 0)⌋ := Int.floor_nonneg.mpr hc0
  have htn : (toByte x : ℤ) = ⌊min 255 (max x 0)⌋ := by
    unfold toByte
    exact Int.toNat_of_nonneg hpos
  rw [htn, abs_le]
  have hgt : ((n : ℤ) - 2 : ℝ) < (⌊min 255 (max x 0)⌋ : ℝ) := by
    push_cast
    linarith
  have hlt : ((⌊min 255 (max x 0)⌋ : ℤ) : ℝ) < ((n : ℤ) + 1 : ℝ) := by
    push_cast
    linarith
  have hgtz : (n : ℤ) - 2 < ⌊min 255 (max x 0)⌋ := by exact_mod_cast hgt
  have hltz : ⌊min 255 (max x 0)⌋ < (n : ℤ) + 1 := by exact_mod_cast hlt
  omega

lemma roundtrip_dev_b (b g r : ℝ) (hb0 : 0 ≤ b) (hb1 : b ≤ 255) (hg0 : 0 ≤ g)
    (hg1 : g ≤ 255) (hr0 : 0 ≤ r) (hr1 : r ≤ 255) :
    |((0.299 * r + 0.587 * g + 0.114 * b) -
        1.105 * (0.596 * r - 0.274 * g - 0.322 * b) +
        1.702 * (0.211 * r - 0.523 * g + 0.312 * b)) - b| ≤ 1 / 2 := by
  rw [abs_le]
  constructor <;> nlinarith

lemma roundtrip_dev_g (b g r : ℝ) (hb0 : 0 ≤ b) (hb1 : b ≤ 255) (hg0 : 0 ≤ g)
    (hg1 : g ≤ 255) (hr0 : 0 ≤ r) (hr1 : r ≤ 255) :
    |((0.299 * r + 0.587 * g + 0.114 * b) -
        0.272 * (0.596 * r - 0.274 * g - 0.322 * b) -
        0.647 * (0.211 * r - 0.523 * g + 0.312 * b)) - g| ≤ 1 / 2 := by
  rw [abs_le]
  constructor <;> nlinarith

lemma roundtrip_dev_r (b g r : ℝ) (hb0 : 0 ≤ b) (hb1 : b ≤ 255) (hg0 : 0 ≤ g)
    (hg1 : g ≤ 255) (hr0 : 0 ≤ r) (hr1 : r ≤ 255) :
    |((0.299 * r + 0.587 * g + 0.114 * b) +
        0.956 * (0.596 * r - 0.274 * g - 0.322 * b) +
        0.619 * (0.211 * r - 0.523 * g + 0.312 * b)) - r| ≤ 1 / 2 := by
  rw [abs_le]
  constructor <;> nlinarith

lemma toFloatFrame_length (F : Frame8) : (toFloatFrame F).length = F.length := by
  simp [toFloatFrame]

lemma toFloatFrame_getD_row (F : Frame8) (i : ℕ) :
    (toFloatFrame F).getD i [] =
      List.map (fun p : ℕ × ℕ × ℕ => ((p.1 : ℝ), (p.2.1 : ℝ), (p.2.2 : ℝ))) (F.getD i []) := by
  have h := getD_map_list
    (List.map fun p : ℕ × ℕ × ℕ => ((p.1 : ℝ), (p.2.1 : ℝ), (p.2.2 : ℝ))) F i []
  simpa [toFloatFrame] using h

lemma toFloatFrame_row0_length (F : Frame8) :
    ((toFloatFrame F).getD 0 []).length = (F.getD 0 []).length := by
  rw [toFloatFrame_getD_row]
  simp

lemma pxR_toFloatFrame (F : Frame8) (i j : ℕ) :
    pxR (toFloatFrame F) i j =
      (((px8 F i j).1 : ℝ), ((px8 F i j).2.1 : ℝ), ((px8 F i j).2.2 : ℝ)) := by
  unfold pxR px8 gridAt
  rw [toFloatFrame_getD_row]
  have h := getD_map_list (fun p : ℕ × ℕ × ℕ => ((p.1 : ℝ), (p.2.1 : ℝ), (p.2.2 : ℝ)))
    (F.getD i []) j (0, 0, 0)
  simpa using h

/-- C3: for every frame whose samples lie in [0, 255], the inverse color
transform applied to the forward transform reproduces every sample of the
frame within 1 (the BGR-YIQ-BGR round trip is the identity up to the
final truncation). -/
theorem colorspace_roundtrip_within_one (F : Frame8) (i j : ℕ)
    (hi : i < F.length) (hj : j < (F.getD 0 []).length)
    (hb : (px8 F i j).1 ≤ 255) (hg : (px8 F i j).2.1 ≤ 255)
    (hr : (px8 F i j).2.2 ≤ 255) :
    |((px8 (yiq2bgr (bgr2yiq (toFloatFrame F))) i j).1 : ℤ) - ((px8 F i j).1 : ℤ)| ≤ 1 ∧
    |((px8 (yiq2bgr (bgr2yiq (toFloatFrame F))) i j).2.1 : ℤ) - ((px8 F i j).2.1 : ℤ)| ≤ 1 ∧
    |((px8 (yiq2bgr (bgr2yiq (toFloatFrame F))) i j).2.2 : ℤ) - ((px8 F i j).2.2 : ℤ)| ≤ 1 := by
  have hGl : (toFloatFrame F).length = F.length := toFloatFrame_length F
  have hGw : ((toFloatFrame F).getD 0 []).length = (F.getD 0 []).length :=
    toFloatFrame_row0_length F
  have hi2 : i < (toFloatFrame F).length := by rw [hGl]; exact hi
  have hj2 : j < ((toFloatFrame F).getD 0 []).length := by rw [hGw]; exact hj
  have hYlen : (bgr2yiq (toFloatFrame F)).Y.length = (toFloatFrame F).length :=
    length_mkGrid _ _ _
  have hhp : 0 < (toFloatFrame F).length := Nat.lt_of_le_of_lt (Nat.zero_le i) hi2
  have hYrow : ((bgr2yiq (toFloatFrame F)).Y.getD 0 []).length =
      ((toFloatFrame F).getD 0 []).length := row0_length_mkGrid _ _ _ hhp
  have hpx : px8 (yiq2bgr (bgr2yiq (toFloatFrame F))) i j =
      (toByte (planePx (bgr2yiq (toFloatFrame F)).Y i j -
         1.105 * planePx (bgr2yiq (toFloatFrame F)).I i j +
         1.702 * planePx (bgr2yiq (toFloatFrame F)).Q i j),
       toByte (planePx (bgr2yiq (toFloatFrame F)).Y i j -
         0.272 * planePx (bgr2yiq (toFloatFrame F)).I i j -
         0.647 * planePx (bgr2yiq (toFloatFrame F)).Q i j),
       toByte (planePx (bgr2yiq (toFloatFrame F)).Y i j +
         0.956 * planePx (bgr2yiq (toFloatFrame F)).I i j +
         0.619 * planePx (bgr2yiq (toFloatFrame F)).Q i j)) := by
    unfold yiq2bgr
    exact px8_mkGrid _ _ _ i j (by rw [hYlen]; exact hi2) (by rw [hYrow]; exact hj2)
  have hY : planePx (bgr2yiq (toFloatFrame F)).Y i j =
      0.299 * ((px8 F i j).2.2 : ℝ) + 0.587 * ((px8 F i j).2.1 : ℝ) +
        0.114 * ((px8 F i j).1 : ℝ) := by
    show planePx (mkGrid _ _ _) i j = _
    rw [planePx_mkGrid _ _ _ _ _ hi2 hj2, pxR_toFloatFrame]
  have hI : planePx (bgr2yiq (toFloatFrame F)).I i j =
      0.596 * ((px8 F i j).2.2 : ℝ) - 0.274 * ((px8 F i j).2.1 : ℝ) -
        0.322 * ((px8 F i j).1 : ℝ) := by
    show planePx (mkGrid _ _ _) i j = _
    rw [planePx_mkGrid _ _ _ _ _ hi2 hj2, pxR_toFloatFrame]
  have hQ : planePx (bgr2yiq (toFloatFrame F)).Q i j =
      0.211 * ((px8 F i j).2.2 : ℝ) - 0.523 * ((px8 F i j).2.1 : ℝ) +
        0.312 * ((px8 F i j).1 : ℝ) := by
    show planePx (mkGrid _ _ _) i j = _
    rw [planePx_mkGrid _ _ _ _ _ hi2 hj2, pxR_toFloatFrame]
  have hb0 : (0 : ℝ) ≤ ((px8 F i j).1 : ℝ) := by positivity
  have hb1 : ((px8 F i j).1 : ℝ) ≤ 255 := by exact_mod_cast hb
  have hg0 : (0 : ℝ) ≤ ((px8 F i j).2.1 : ℝ) := by positivity
  have hg1 : ((px8 F i j).2.1 : ℝ) ≤ 255 := by exact_mod_cast hg
  have hr0 : (0 : ℝ) ≤ ((px8 F i j).2.2 : ℝ) := by positivity
  have hr1 : ((px8 F i j).2.2 : ℝ) ≤ 255 := by exact_mod_cast hr
  rw [hpx]
  refine ⟨?_, ?_, ?_⟩
  · show |(toByte _ : ℤ) - _| ≤ 1
    rw [hY, hI, hQ]
    apply toByte_close _ _ hb
    have h := roundtrip_dev_b ((px8 F i j).1 : ℝ) ((px8 F i j).2.1 : ℝ)
      ((px8 F i j).2.2 : ℝ) hb0 hb1 hg0 hg1 hr0 hr1
    exact h
  · show |(toByte _ : ℤ) - _| ≤ 1
    rw [hY, hI, hQ]
    apply toByte_close _ _ hg
    have h := roundtrip_dev_g ((px8 F i j).1 : ℝ) ((px8 F i j).2.1 : ℝ)
      ((px8 F i j).2.2 : ℝ) hb0 hb1 hg0 hg1 hr0 hr1
    exact h
  · show |(toByte _ : ℤ) - _| ≤ 1
    rw [hY, hI, hQ]
    apply toByte_close _ _ hr
    have h := roundtrip_dev_r ((px8 F i j).1 : ℝ) ((px8 F i j).2.1 : ℝ)
      ((px8 F i j).2.2 : ℝ) hb0 hb1 hg0 hg1 hr0 hr1
    exact h

theorem colorspace_roundtrip_within_one_witness :
    (0 : ℕ) < ([[(200, 100, 50)]] : Frame8).length ∧
    |((px8 (yiq2bgr (bgr2yiq (toFloatFrame [[(200, 100, 50)]]))) 0 0).1 : ℤ) -
      ((px8 ([[(200, 100, 50)]] : Frame8) 0 0).1 : ℤ)| ≤ 1 := by
  refine ⟨by decide, ?_⟩
  exact (colorspace_roundtrip_within_one [[(200, 100, 50)]] 0 0 (by decide) (by decide)
    (by decide) (by decide) (by decide)).1

/-- The one-pixel YIQ input (Y = 0.9, I = Q = 0) separating truncation
from round-to-nearest. -/
def c9YIQ : YIQ :=
  { Y := [[0.9]], I := [[0]], Q := [[0]] }

lemma toByte_ninetenths : toByte ((9 : ℝ) / 10) = 0 := by
  unfold toByte
  rw [max_eq_left (by norm_num), min_eq_right (by norm_num)]
  have hf : ⌊(9 : ℝ) / 10⌋ = (0 : ℤ) := by
    rw [Int.floor_eq_iff]
    norm_num
  rw [hf]
  rfl

lemma toByteNearest_ninetenths : toByteNearest ((9 : ℝ) / 10) = 1 := by
  unfold toByteNearest
  rw [max_eq_left (by norm_num), min_eq_right (by norm_num)]
  have hf : round ((9 : ℝ) / 10) = (1 : ℤ) := by
    rw [round_eq]
    have : ⌊(9 : ℝ) / 10 + 1 / 2⌋ = (1 : ℤ) := by
      rw [Int.floor_eq_iff]
      norm_num
    exact this
  rw [hf]
  rfl

/-- C9 (counterexample): on the plane Y = 0.9, I = Q = 0 the code's
inverse transform truncates 0.9 to byte 0, while the claimed
round-to-nearest semantics would give byte 1. -/
theorem yiq2bgr_rounding_cex :
    yiq2bgr c9YIQ = [[(0, 0, 0)]] ∧ yiq2bgrClaimed c9YIQ = [[(1, 1, 1)]] := by
  constructor
  · unfold yiq2bgr c9YIQ
    norm_num [mkGrid, List.range_succ, planePx, gridAt, toByte_ninetenths]
  · unfold yiq2bgrClaimed c9YIQ
    norm_num [mkGrid, List.range_succ, planePx, gridAt, toByteNearest_ninetenths]

lemma toByte_floor_spec (x : ℝ) :
    ((toByte x : ℕ) : ℝ) ≤ min 255 (max x 0) ∧
    min 255 (max x 0) < ((toByte x : ℕ) : ℝ) + 1 ∧ toByte x ≤ 255 := by
  have hc0 : (0 : ℝ) ≤ min 255 (max x 0) := le_min (by norm_num) (le_max_right x 0)
  have hpos : 0 ≤ ⌊min 255 (max x 0)⌋ := Int.floor_nonneg.mpr hc0
  have hcast : ((toByte x : ℕ) : ℝ) = ((⌊min 255 (max x 0)⌋ : ℤ) : ℝ) := by
    unfold toByte
    exact_mod_cast congrArg (fun z : ℤ => (z : ℝ)) (Int.toNat_of_nonneg hpos)
  refine ⟨?_, ?_, ?_⟩
  · rw [hcast]
    exact Int.floor_le _
  · rw [hcast]
    exact Int.lt_floor_add_one _
  · have h255 : ⌊min 255 (max x 0)⌋ ≤ 255 := by
      have := Int.floor_le_floor (min_le_left (255 : ℝ) (max x 0))
      simpa using this
    unfold toByte
    omega

/-- C9 (amended): the inverse color transform applies the fixed matrix
per pixel and clamps to [0, 255], but then truncates toward zero (floor)
rather than rounding to nearest: each output byte n satisfies
n ≤ clamped value < n + 1, and n ≤ 255. -/
theorem yiq2bgr_floor_characterization (s : YIQ) (i j : ℕ)
    (hi : i < s.Y.length) (hj : j < (s.Y.getD 0 []).length) :
    (((px8 (yiq2bgr s) i j).1 : ℝ) ≤
        min 255 (max (planePx s.Y i j - 1.105 * planePx s.I i j +
          1.702 * planePx s.Q i j) 0) ∧
      min 255 (max (planePx s.Y i j - 1.105 * planePx s.I i j +
          1.702 * planePx s.Q i j) 0) < ((px8 (yiq2bgr s) i j).1 : ℝ) + 1 ∧
      (px8 (yiq2bgr s) i j).1 ≤ 255) ∧
    (((px8 (yiq2bgr s) i j).2.1 : ℝ) ≤
        min 255 (max (planePx s.Y i j - 0.272 * planePx s.I i j -
          0.647 * planePx s.Q i j) 0) ∧
      min 255 (max (planePx s.Y i j - 0.272 * planePx s.I i j -
          0.647 * planePx s.Q i j) 0) < ((px8 (yiq2bgr s) i j).2.1 : ℝ) + 1 ∧
      (px8 (yiq2bgr s) i j).2.1 ≤ 255) ∧
    (((px8 (yiq2bgr s) i j).2.2 : ℝ) ≤
        min 255 (max (planePx s.Y i j + 0.956 * planePx s.I i j +
          0.619 * planePx s.Q i j) 0) ∧
      min 255 (max (planePx s.Y i j + 0.956 * planePx s.I i j +
          0.619 * planePx s.Q i j) 0) < ((px8 (yiq2bgr s) i j).2.2 : ℝ) + 1 ∧
      (px8 (yiq2bgr s) i j).2.2 ≤ 255) := by
  have hpx : px8 (yiq2bgr s) i j =
      (toByte (planePx s.Y i j - 1.105 * planePx s.I i j + 1.702 * planePx s.Q i j),
       toByte (planePx s.Y i j - 0.272 * planePx s.I i j - 0.647 * planePx s.Q i j),
       toByte (planePx s.Y i j + 0.956 * planePx s.I i j + 0.619 * planePx s.Q i j)) := by
    unfold yiq2bgr
    exact px8_mkGrid _ _ _ i j hi hj
  rw [hpx]
  exact ⟨toByte_floor_spec _, toByte_floor_spec _, toByte_floor_spec _⟩

theorem yiq2bgr_floor_characterization_witness :
    (0 : ℕ) < (([[(1 : ℝ)]] : Plane)).length ∧
    (((px8 (yiq2bgr (YIQ.mk [[(1 : ℝ)]] [[0]] [[0]])) 0 0).1 : ℝ) ≤
        min 255 (max (planePx [[(1 : ℝ)]] 0 0 - 1.105 * planePx [[(0 : ℝ)]] 0 0 +
          1.702 * planePx [[(0 : ℝ)]] 0 0) 0) ∧
      min 255 (max (planePx [[(1 : ℝ)]] 0 0 - 1.105 * planePx [[(0 : ℝ)]] 0 0 +
          1.702 * planePx [[(0 : ℝ)]] 0 0) 0) <
        ((px8 (yiq2bgr (YIQ.mk [[(1 : ℝ)]] [[0]] [[0]])) 0 0).1 : ℝ) + 1 ∧
      (px8 (yiq2bgr (YIQ.mk [[(1 : ℝ)]] [[0]] [[0]])) 0 0).1 ≤ 255) := by
  refine ⟨by norm_num, ?_⟩
  exact (yiq2bgr_floor_characterization (YIQ.mk [[(1 : ℝ)]] [[0]] [[0]]) 0 0
    (by norm_num) (by norm_num)).1

/-- Every sample of the frame is a valid 8-bit value (the Frame data
model: samples in [0, 255]). -/
def frameBounded (F : Frame8) : Prop :=
  ∀ row ∈ F, ∀ p ∈ row, p.1 ≤ 255 ∧ p.2.1 ≤ 255 ∧ p.2.2 ≤ 255

lemma frame8Clip_id (F : Frame8) (hF : frameBounded F) : frame8Clip F = F := by
  unfold frame8Clip
  conv_rhs => rw [← List.map_id F]
  apply List.map_congr_left
  intro row hrow
  show row.map _ = id row
  conv_rhs => rw [show id row = row from rfl, ← List.map_id row]
  apply List.map_congr_left
  intro p hp
  obtain ⟨h1, h2, h3⟩ := hF row hrow p hp
  simp [min_eq_left h1, min_eq_left h2, min_eq_left h3]

/-- C8: the output sharpener is the identity on every well-formed 8-bit
frame when strength ≤ 1, and for strength > 1 its output is
strength * frame + (1 - strength) * blur3x3sigma1(frame), clamped to
[0, 255] (and truncated to bytes), channel by channel. -/
theorem output_sharpen_contract (F : Frame8) (st : ℝ) :
    (frameBounded F → st ≤ 1 → outputSharpen F st = F) ∧
    (1 < st → outputSharpen F st = sharpenClaimed F st) := by
  constructor
  · intro hF hst
    unfold outputSharpen
    rw [if_neg (not_lt.mpr hst)]
    exact frame8Clip_id F hF
  · intro hst
    unfold outputSharpen sharpenClaimed
    rw [if_pos hst]
    apply mkGrid_congr
    intro i _ j _
    have e1 : ∀ a b : ℝ, st * a + -(st - 1) * b + 0 = st * a + (1 - st) * b := by
      intro a b
      ring
    rw [e1, e1, e1]

theorem output_sharpen_contract_witness :
    frameBounded [[(10, 20, 30)]] ∧ (0.5 : ℝ) ≤ 1 ∧ (1 : ℝ) < 2 ∧
    outputSharpen [[(10, 20, 30)]] 0.5 = [[(10, 20, 30)]] ∧
    outputSharpen [[(10, 20, 30)]] 2 = sharpenClaimed [[(10, 20, 30)]] 2 := by
  have hb : frameBounded [[(10, 20, 30)]] := by
    intro row hrow p hp
    simp only [List.mem_singleton] at hrow
    subst hrow
    simp only [List.mem_singleton] at hp
    subst hp
    norm_num
  exact ⟨hb, by norm_num, by norm_num,
    (output_sharpen_contract [[(10, 20, 30)]] 0.5).1 hb (by norm_num),
    (output_sharpen_contract [[(10, 20, 30)]] 2).2 (by norm_num)⟩

/-- C10: when the chroma noise amount is not positive and the phase noise
is positive, the per-pixel rotation of the (I, Q) vector by the drawn
angle preserves the chroma magnitude exactly at every in-range pixel:
I2^2 + Q2^2 = I^2 + Q^2. -/
theorem chroma_phase_magnitude (s : YIQ) (amt phase : ℝ) (ni nq draw : Plane)
    (i j : ℕ) (hamt : amt ≤ 0) (hph : 0 < phase)
    (hi : i < s.I.length) (hj : j < (s.I.getD 0 []).length) :
    planePx (apply_chroma_noise s amt phase ni nq draw).I i j ^ 2 +
      planePx (apply_chroma_noise s amt phase ni nq draw).Q i j ^ 2 =
    planePx s.I i j ^ 2 + planePx s.Q i j ^ 2 := by
  unfold apply_chroma_noise
  rw [if_neg (not_lt.mpr hamt), if_neg (not_lt.mpr hamt), if_pos hph]
  simp only
  rw [planePx_mkGrid _ _ _ _ _ hi hj, planePx_mkGrid _ _ _ _ _ hi hj]
  have hpyth := Real.sin_sq_add_cos_sq (planePx draw i j * Real.pi / 180)
  nlinarith [hpyth]

theorem chroma_phase_magnitude_witness :
    (0 : ℝ) ≤ 0 ∧ (0 : ℝ) < 1 ∧
    planePx (apply_chroma_noise (YIQ.mk [[0]] [[1]] [[2]]) 0 1 [] [] [[0]]).I 0 0 ^ 2 +
      planePx (apply_chroma_noise (YIQ.mk [[0]] [[1]] [[2]]) 0 1 [] [] [[0]]).Q 0 0 ^ 2 =
    planePx ([[(1 : ℝ)]]) 0 0 ^ 2 + planePx ([[(2 : ℝ)]]) 0 0 ^ 2 := by
  refine ⟨le_refl 0, by norm_num, ?_⟩
  exact chroma_phase_magnitude (YIQ.mk [[0]] [[1]] [[2]]) 0 1 [] [] [[0]] 0 0
    (le_refl 0) (by norm_num) (by norm_num) (by norm_num)

/-- A 3x1 YIQ input whose I plane varies down the column: a blur across
scanlines changes it, a blur along the scanline does not. -/
def c6YIQ : YIQ :=
  { Y := [[0], [0], [0]], I := [[0], [3], [0]], Q := [[0], [0], [0]] }

lemma bleedKernelSize_one : bleedKernelSize 1 = 3 := by
  unfold bleedKernelSize
  rw [show ((1 : ℝ) * 2) = ((2 : ℕ) : ℝ) by norm_num, Int.floor_natCast]
  rfl

lemma firPlane_c6 : firPlane 3 [[(0 : ℝ)], [3], [0]] = [[0], [1], [0]] := by
  norm_num [firPlane, mkGrid, List.range_succ, Finset.sum_range_succ,
    Finset.sum_range_zero, planePx, gridAt]

lemma blurH_one_c6 : blurH [(1 : ℝ)] [[(0 : ℝ)], [1], [0]] = [[0], [1], [0]] := by
  norm_num [blurH, mkGrid, List.range_succ, Finset.sum_range_succ,
    Finset.sum_range_zero, planePx, gridAt, borderIdx]

lemma blurV_three_c6 :
    blurV [(0.25 : ℝ), 0.5, 0.25] [[(0 : ℝ)], [1], [0]] = [[1 / 2], [1 / 2], [1 / 2]] := by
  norm_num [blurV, mkGrid, List.range_succ, Finset.sum_range_succ,
    Finset.sum_range_zero, planePx, gridAt, borderIdx,
    show Int.toNat 2 = 2 from rfl, List.getD]

lemma blurH_three_c6 : blurH [(0.25 : ℝ), 0.5, 0.25] [[(0 : ℝ)], [1], [0]] = [[0], [1], [0]] := by
  norm_num [blurH, mkGrid, List.range_succ, Finset.sum_range_succ,
    Finset.sum_range_zero, planePx, gridAt, borderIdx]

lemma blurV_one_c6 : blurV [(1 : ℝ)] [[(0 : ℝ)], [1], [0]] = [[0], [1], [0]] := by
  norm_num [blurV, mkGrid, List.range_succ, Finset.sum_range_succ,
    Finset.sum_range_zero, planePx, gridAt, borderIdx,
    show Int.toNat 2 = 2 from rfl, List.getD]

/-- C6 (counterexample): with amount 1 the code blurs the FIR output of
the I plane across scanlines (ksize (1, 3) is width 1, height 3), giving
0.5 at the top pixel, while the claimed scanline-axis Gaussian would
leave the column untouched, giving 0: the stage as implemented is not
the stage the claim describes. -/
theorem color_bleed_axis_cex :
    planePx (apply_color_bleeding c6YIQ 1).I 0 0 = 1 / 2 ∧
    planePx (colorBleedClaimed c6YIQ 1).I 0 0 = 0 ∧
    (apply_color_bleeding c6YIQ 1).I ≠ (colorBleedClaimed c6YIQ 1).I := by
  have hcode : (apply_color_bleeding c6YIQ 1).I = [[1 / 2], [1 / 2], [1 / 2]] := by
    unfold apply_color_bleeding c6YIQ
    rw [if_pos (by norm_num : (0 : ℝ) < 1)]
    simp only [bleedKernelSize_one]
    rw [if_pos (by norm_num : 1 < 3)]
    show gaussianBlur 1 3 0 (firPlane 3 [[(0 : ℝ)], [3], [0]]) = _
    unfold gaussianBlur
    rw [gaussKernel_one_eval, gaussKernel_three_eval, firPlane_c6, blurH_one_c6,
      blurV_three_c6]
  have hclaim : (colorBleedClaimed c6YIQ 1).I = [[0], [1], [0]] := by
    unfold colorBleedClaimed c6YIQ
    rw [if_pos (by norm_num : (0 : ℝ) < 1)]
    simp only [bleedKernelSize_one]
    rw [if_pos (by norm_num : 1 < 3)]
    show gaussianBlur 3 1 0 (firPlane 3 [[(0 : ℝ)], [3], [0]]) = _
    unfold gaussianBlur
    rw [gaussKernel_one_eval, gaussKernel_three_eval, firPlane_c6, blurH_three_c6,
      blurV_one_c6]
  refine ⟨?_, ?_, ?_⟩
  · rw [hcode]
    norm_num [planePx, gridAt]
  · rw [hclaim]
    norm_num [planePx, gridAt]
  · rw [hcode, hclaim]
    intro hcontra
    have := congrArg (fun l : Plane => planePx l 0 0) hcontra
    norm_num [planePx, gridAt] at this

lemma bleedKernelSize_nat (a : ℕ) : bleedKernelSize (a : ℝ) = 2 * a + 1 := by
  unfold bleedKernelSize
  rw [show ((a : ℕ) : ℝ) * 2 = ((2 * a : ℕ) : ℝ) by push_cast; ring, Int.floor_natCast]
  omega

/-- C6 (amended): for every positive integer amount the stage uses a
kernel of length 2 * amount + 1 (always odd), applies the causal
moving-average FIR of that length along each scanline independently to I
and Q with zero initialization at the row start, then an additional
Gaussian blur of the same kernel size oriented ACROSS scanlines (the
column axis: ksize (1, k) is width 1, height k), not along the scanline
axis; the Y plane is untouched, and the stage is a no-op for any
amount ≤ 0.  (Non-integer amounts are outside the claim: the derived
length int(2 * amount) + 1 can be even, e.g. 6 at amount 2.5, and
cv2.GaussianBlur then raises cv2.error in the program.) -/
theorem color_bleed_characterization (s : YIQ) (a : ℕ) (x : ℝ) :
    (x ≤ 0 → apply_color_bleeding s x = s) ∧
    (0 < a →
      apply_color_bleeding s ((a : ℕ) : ℝ) =
        YIQ.mk s.Y
          (gaussianBlur 1 (2 * a + 1) 0 (firPlane (2 * a + 1) s.I))
          (gaussianBlur 1 (2 * a + 1) 0 (firPlane (2 * a + 1) s.Q))) := by
  constructor
  · intro h
    unfold apply_color_bleeding
    rw [if_neg (not_lt.mpr h)]
  · intro ha
    unfold apply_color_bleeding
    have hcast : (0 : ℝ) < ((a : ℕ) : ℝ) := by exact_mod_cast ha
    rw [if_pos hcast]
    simp only [bleedKernelSize_nat]
    rw [if_pos (by omega : 1 < 2 * a + 1)]

theorem color_bleed_characterization_witness :
    ((0 : ℝ) ≤ 0) ∧ (0 < 1) ∧
    apply_color_bleeding c6YIQ 0 = c6YIQ ∧
    apply_color_bleeding c6YIQ ((1 : ℕ) : ℝ) =
      YIQ.mk c6YIQ.Y
        (gaussianBlur 1 (2 * 1 + 1) 0 (firPlane (2 * 1 + 1) c6YIQ.I))
        (gaussianBlur 1 (2 * 1 + 1) 0 (firPlane (2 * 1 + 1) c6YIQ.Q)) := by
  exact ⟨le_refl 0, Nat.zero_lt_one,
    (color_bleed_characterization c6YIQ 1 0).1 (le_refl 0),
    (color_bleed_characterization c6YIQ 1 0).2 Nat.zero_lt_one⟩

/-- A caller-supplied parameter record whose only key is the unknown
tape-speed preset string "XX". -/
def c7ParamsIn : ParamsIn :=
  { composite_preemphasis := none
    vhs_out_sharpen := none
    color_bleeding := none
    video_noise := none
    chroma_noise := none
    chroma_phase_noise := none
    enable_ringing := none
    ringing_power := none
    tape_speed := some "XX" }

/-- C7 (amended): an unknown tape-speed preset is a fatal error, but it
is raised during per-frame processing, at the tape-speed resolution step
inside process_frame (the dynamic getattr lookup), for every frame
processed with such parameters. -/
theorem unknown_preset_frame_error (f : Frame8) (p : Params) (r : RandDraws)
    (h : resolvePreset p.tape_speed = none) :
    process_frame f p r = Except.error ("AttributeError: VHS_" ++ p.tape_speed) := by
  unfold process_frame
  rw [h]

theorem unknown_preset_frame_error_witness :
    resolvePreset (validateParams c7ParamsIn).tape_speed = none ∧
    process_frame [[(0, 0, 0)]] (validateParams c7ParamsIn) rand0 =
      Except.error ("AttributeError: VHS_" ++ (validateParams c7ParamsIn).tape_speed) := by
  have h : resolvePreset (validateParams c7ParamsIn).tape_speed = none := by
    simp [resolvePreset, validateParams, c7ParamsIn, default_params]
  exact ⟨h, unknown_preset_frame_error _ _ _ h⟩

/-- C7 (counterexample): the parameter-validation step of process_video
is total - on the record supplying only the unknown preset "XX" it just
fills every other key from the defaults and keeps "XX" - and the frame
loop then fails on the first frame, inside process_frame: the unknown
preset is not rejected at parameter-validation time, before frames are
touched. -/
theorem preset_validation_cex :
    validateParams c7ParamsIn = { default_params with tape_speed := "XX" } ∧
    processVideoFrames [[[(0, 0, 0)]]] c7ParamsIn rand0 =
      Except.error ("AttributeError: VHS_XX") := by
  constructor
  · rfl
  · unfold processVideoFrames
    have hpf : process_frame [[(0, 0, 0)]] (validateParams c7ParamsIn) rand0 =
        Except.error ("AttributeError: VHS_XX") := by
      have h : resolvePreset (validateParams c7ParamsIn).tape_speed = none := by
        simp [resolvePreset, validateParams, c7ParamsIn, default_params]
      rw [unknown_preset_frame_error _ _ _ h]
      rfl
    simp only [List.mapM, List.mapM.loop, hpf]
    rfl

lemma foldl_min_le_init (l : List ℝ) (a : ℝ) : l.foldl min a ≤ a := by
  induction l generalizing a with
  | nil => exact le_refl a
  | cons b t ih => exact le_trans (ih (min a b)) (min_le_left a b)

lemma foldl_min_le_mem (l : List ℝ) (a v : ℝ) (hv : v ∈ l) : l.foldl min a ≤ v := by
  induction l generalizing a with
  | nil => cases hv
  | cons b t ih =>
    rcases List.mem_cons.mp hv with h | h
    · subst h
      exact le_trans (foldl_min_le_init t (min a v)) (min_le_right a v)
    · exact ih (min a b) h

lemma init_le_foldl_max (l : List ℝ) (a : ℝ) : a ≤ l.foldl max a := by
  induction l generalizing a with
  | nil => exact le_refl a
  | cons b t ih => exact le_trans (le_max_left a b) (ih (max a b))

lemma mem_le_foldl_max (l : List ℝ) (a v : ℝ) (hv : v ∈ l) : v ≤ l.foldl max a := by
  induction l generalizing a with
  | nil => cases hv
  | cons b t ih =>
    rcases List.mem_cons.mp hv with h | h
    · subst h
      exact le_trans (le_max_right a v) (init_le_foldl_max t (max a v))
    · exact ih (max a b) h

lemma listMin_le_of_mem (l : List ℝ) (v : ℝ) (hv : v ∈ l) : listMin l ≤ v :=
  foldl_min_le_mem l (l.headD 0) v hv

lemma le_listMax_of_mem (l : List ℝ) (v : ℝ) (hv : v ∈ l) : v ≤ listMax l :=
  mem_le_foldl_max l (l.headD 0) v hv

lemma listMin_le_listMax (l : List ℝ) : listMin l ≤ listMax l :=
  le_trans (foldl_min_le_init l (l.headD 0)) (init_le_foldl_max l (l.headD 0))

lemma normalize01_bounds (l : List ℝ) (i : ℕ) :
    0 ≤ (normalize01 l).getD i 0 ∧ (normalize01 l).getD i 0 ≤ 1 := by
  unfold normalize01
  by_cases hi : i < (l.map fun v => (v - listMin l) / (listMax l - listMin l)).length
  · rw [List.getD_eq_getElem _ _ hi, List.getElem_map]
    have hil : i < l.length := by simpa using hi
    have hvmem : l[i] ∈ l := List.getElem_mem hil
    have h1 : listMin l ≤ l[i] := listMin_le_of_mem l _ hvmem
    have h2 : l[i] ≤ listMax l := le_listMax_of_mem l _ hvmem
    by_cases hd : listMax l - listMin l = 0
    · have hz : (l[i] - listMin l) / (listMax l - listMin l) = 0 := by
        rw [hd, div_zero]
      rw [hz]
      norm_num
    · have hpos : 0 < listMax l - listMin l :=
        lt_of_le_of_ne (by linarith [listMin_le_listMax l]) (Ne.symm hd)
      constructor
      · apply div_nonneg _ (le_of_lt hpos)
        linarith
      · rw [div_le_one hpos]
        linarith
  · rw [List.getD_eq_default _ _ (le_of_not_lt hi)]
    norm_num

/-- C4: every entry of the ring pattern generated at any size lies in
[0, 1] inclusive - each output value is (v - min) / (max - min) with
min ≤ v ≤ max - and the generator is deterministic, being a pure
function of its size (repeated applications are definitionally equal). -/
theorem ring_pattern_bounds (n i : ℕ) :
    0 ≤ (generate_ring_pattern n).getD i 0 ∧
    (generate_ring_pattern n).getD i 0 ≤ 1 := by
  unfold generate_ring_pattern
  simp only []
  exact normalize01_bounds _ i

lemma planeScale_mkGrid (c : ℝ) (h w : ℕ) (f : ℕ → ℕ → ℝ) :
    planeScale c (mkGrid h w f) = mkGrid h w fun i j => c * f i j := by
  rcases Nat.eq_zero_or_pos h with hh | hh
  · subst hh; rfl
  · unfold planeScale
    rw [length_mkGrid, row0_length_mkGrid _ _ _ hh]
    apply mkGrid_congr
    intro i hi j hj
    rw [planePx_mkGrid _ _ _ _ _ hi hj]

lemma planeMean_mkGrid (h w : ℕ) (f : ℕ → ℕ → ℝ) (hh : 0 < h) :
    planeMean (mkGrid h w f) =
      (∑ i ∈ Finset.range h, ∑ j ∈ Finset.range w, f i j) / ((h : ℝ) * (w : ℝ)) := by
  unfold planeMean
  rw [planeSum_mkGrid, length_mkGrid, row0_length_mkGrid _ _ _ hh]

lemma planeMean_scale (c : ℝ) (h w : ℕ) (f : ℕ → ℕ → ℝ) :
    planeMean (planeScale c (mkGrid h w f)) = c * planeMean (mkGrid h w f) := by
  rcases Nat.eq_zero_or_pos h with hh | hh
  · subst hh
    show planeMean [] = c * planeMean []
    unfold planeMean planeSum
    norm_num
  · rw [planeScale_mkGrid, planeMean_mkGrid _ _ _ hh, planeMean_mkGrid _ _ _ hh]
    have hsum : (∑ i ∈ Finset.range h, ∑ j ∈ Finset.range w, c * f i j) =
        c * ∑ i ∈ Finset.range h, ∑ j ∈ Finset.range w, f i j := by
      rw [Finset.mul_sum]
      exact Finset.sum_congr rfl fun i _ => (Finset.mul_sum _ _ _).symm
    rw [hsum, mul_div_assoc]

lemma dcRestore_mean (odc : ℝ) (h w : ℕ) (f : ℕ → ℕ → ℝ)
    (hne : planeMean (mkGrid h w f) ≠ 0) :
    planeMean (dcRestore odc (mkGrid h w f)) = odc := by
  unfold dcRestore
  rw [if_pos hne, planeMean_scale]
  field_simp

/-- C1: for every input plane and every power, with filtered denoting the
masked-spectrum inverse transform of the plane: when the mean of filtered
(current_dc) is nonzero, the whole plane is rescaled by
original_dc / current_dc so that the resulting channel's mean equals the
input plane's mean exactly; when that mean is exactly zero the correction
is skipped and the channel is the unscaled filtered plane. -/
theorem ringing_dc_correction (P : Plane) (power : ℕ) :
    (planeMean (ringFiltered P power) ≠ 0 →
      planeMean (ringChannel P power) = planeMean P) ∧
    (planeMean (ringFiltered P power) = 0 →
      ringChannel P power = ringFiltered P power) := by
  constructor
  · intro hne
    unfold ringChannel
    unfold ringFiltered at hne ⊢
    exact dcRestore_mean _ _ _ _ hne
  · intro hz
    unfold ringChannel dcRestore
    rw [if_neg (not_not_intro hz)]

lemma ringFilteredFun_one : ringFilteredFun [[(1 : ℝ)]] 2 0 0 = 1 := by
  unfold ringFilteredFun dft2 ringMask shiftIdx unshiftIdx
  norm_num [Finset.sum_range_one, planePx, gridAt, Complex.exp_zero]

theorem ringing_dc_correction_witness :
    planeMean (ringFiltered [[(1 : ℝ)]] 2) ≠ 0 ∧
    planeMean (ringChannel [[(1 : ℝ)]] 2) = planeMean [[(1 : ℝ)]] := by
  have hf : ringFiltered [[(1 : ℝ)]] 2 = [[1]] := by
    show mkGrid 1 1 (ringFilteredFun [[(1 : ℝ)]] 2) = [[1]]
    rw [show mkGrid 1 1 (ringFilteredFun [[(1 : ℝ)]] 2) =
      [[ringFilteredFun [[(1 : ℝ)]] 2 0 0]] from rfl]
    rw [ringFilteredFun_one]
  have hne : planeMean (ringFiltered [[(1 : ℝ)]] 2) ≠ 0 := by
    rw [hf]
    norm_num [planeMean, planeSum]
  exact ⟨hne, (ringing_dc_correction [[(1 : ℝ)]] 2).1 hne⟩
